import Mathlib

/-!
# Mining scheduler (`scheduler.c`): embedding and verification

The C program runs `NUM_PROCESSES` mining threads (`mine`) and one menu thread
(`ui_thread`) over a handful of global variables guarded by `block_mutex`.

Embedding conventions.

* A C string is the list of its bytes before the terminating NUL (`CStr`).
* `unsigned long` is 64 bits wide (LP64); values are `Nat` reduced modulo `2 ^ 64`.
* The `int` globals `block_count`, `current_block`, `max_blocks`, `difficulty`
  are only ever assigned non-negative values far below `2 ^ 31`, so they are
  `Nat`.
* A number typed at a prompt is an unbounded `Int`; `atoi` turns it into the
  32-bit `int` (`new_max`, `new_diff`) that the program tests.
* `block_solved` and `simulation_running` only hold `0` or `1`: they are `Bool`.
* The heap array `ledger` is a list of cells, one per allocated `Block`;
  a cell that was never written (fresh from `malloc`/`realloc`) is `none`.
* Every critical section of `block_mutex`, and every stretch of a thread that
  runs between two synchronisation points, is one atomic step; a run of the
  program is an interleaving of such steps.
-/

namespace Scheduler

/-! ## Strings and formatting -/

/-- Bytes of a C string, terminator excluded. -/
abbrev CStr := List Nat

/-- Number of values of an `unsigned long`. -/
def U64 : Nat := 2 ^ 64

/-- Digits of `n` in base `b`, most significant first, as ASCII bytes
(`0`-`9`, then `a`-`f`); `fuel` bounds the number of digits. -/
def fmt_digits (b : Nat) : Nat → Nat → List Nat → List Nat
  | 0, _, acc => acc
  | fuel + 1, n, acc =>
    let d := n % b
    let c := if d < 10 then 48 + d else 87 + d
    if n / b = 0 then c :: acc else fmt_digits b fuel (n / b) (c :: acc)

/-- Conversion `%lu` of `printf`. -/
def fmt_lu (n : Nat) : CStr := fmt_digits 10 (n + 1) n []

/-- Conversion `%lx` of `printf`. -/
def fmt_lx (n : Nat) : CStr := fmt_digits 16 (n + 1) n []

/-- Conversion `%d` of `printf`. -/
def fmt_d (i : Int) : CStr :=
  if i < 0 then 45 :: fmt_lu (-i).toNat else fmt_lu i.toNat

/-- Conversion `%s` of `printf`: the argument is read up to its first NUL. -/
def fmt_s (s : List Nat) : CStr := s.takeWhile (fun b => b != 0)

/-- What `snprintf (buf, size, ...)` leaves in `buf`: at most `size - 1` bytes
of the formatted text. -/
def snprintf (size : Nat) (formatted : List Nat) : CStr := formatted.take (size - 1)

/-- What `strncpy (dst, src, size)` leaves in `dst`, read as a string. -/
def strncpy (size : Nat) (src : CStr) : CStr := src.take size

/-! ## Puzzle: `simple_hash` and `meets_difficulty` -/

/-- Value of `hash * 31 + input[i]` contributed by one `char`: `char` is signed
on the target, so a byte above 127 is sign-extended to 64 bits. -/
def char_to_ulong (b : Nat) : Nat := if b < 128 then b else U64 - 256 + b

/-- The loop `for (i = 0; input[i]; i++) hash = hash * 31 + input[i];`. -/
def hash_loop : List Nat → Nat → Nat
  | [], hash => hash
  | b :: rest, hash =>
    if b = 0 then hash else hash_loop rest ((hash * 31 + char_to_ulong b) % U64)

/-- The function `simple_hash`: format `prev_hash`, `data`, `nonce` into the
512-byte buffer `input`, then fold its bytes. -/
def simple_hash (data : List Nat) (nonce : Nat) (prev_hash : List Nat) : Nat :=
  hash_loop (snprintf 512 (fmt_s prev_hash ++ fmt_s data ++ fmt_lu nonce)) 0

/-- The function `meets_difficulty`, the global `difficulty` made a parameter:
`mask = (1UL << (difficulty * 4)) - 1; return (hash & mask) == 0;`. -/
def meets_difficulty (difficulty : Nat) (hash : Nat) : Bool :=
  let mask := ((1 <<< (difficulty * 4)) % U64 + U64 - 1) % U64
  (hash &&& mask) == 0

/-! ## Data model -/

/-- The struct `Block`. -/
structure Block where
  block_id : Nat
  process_id : Nat
  timestamp : Int
  data : CStr
  nonce : Nat
  prev_hash : CStr
deriving DecidableEq, Repr

/-- The global variables of the program. -/
structure Globals where
  ledger : List (Option Block)
  block_count : Nat
  max_blocks : Nat
  difficulty : Nat
  block_solved : Bool
  current_block : Nat
  simulation_running : Bool
deriving DecidableEq, Repr

/-- Where a mining thread stands in `mine`. -/
inductive Pc where
  /-- About to lock `block_mutex` at the top of `while (1)`. -/
  | lock_round
  /-- Blocked in the first `pthread_cond_wait` (round-start wait). -/
  | wait_round
  /-- Blocked in the second `pthread_cond_wait` (`block_solved` wait). -/
  | wait_solved
  /-- At the test of the nonce loop. -/
  | search_head
  /-- In the body of the nonce loop, about to hash. -/
  | search_hash
  /-- Found a nonce, about to lock `block_mutex` for the commit. -/
  | commit
  /-- The thread function has returned. -/
  | returned
deriving DecidableEq, Repr

/-- The local variables of one mining thread. -/
structure Worker where
  process_id : Nat
  data : CStr
  nonce : Nat
  prev_hash : CStr
  hash : Nat
  pc : Pc
deriving DecidableEq, Repr

/-- The text `" ran for 10ms, block "`. -/
def ran_for_text : CStr :=
  [32, 114, 97, 110, 32, 102, 111, 114, 32, 49, 48, 109, 115, 44, 32, 98, 108, 111, 99, 107, 32]

/-- Payload of a round: `snprintf (data, 256, "P%d ran for 10ms, block %d", ...)`. -/
def payload (process_id current_block : Nat) : CStr :=
  snprintf 256 (80 :: fmt_d process_id ++ ran_for_text ++ fmt_d current_block)

/-- The genesis value `"0"` of the local `prev_hash`. -/
def genesis : CStr := [48]

/-! ## The mining thread -/

/-- From the `block_solved` wait to the start of the search, mutex held:
park while `block_solved && simulation_running`, leave the thread function when
stopped or full, else unlock and start the nonce loop at `nonce = 0`. -/
def mine_solved_wait (g : Globals) (w : Worker) : Worker :=
  if g.block_solved && g.simulation_running then { w with pc := Pc.wait_solved }
  else if !g.simulation_running || decide (g.current_block ≥ g.max_blocks) then
    { w with pc := Pc.returned }
  else { w with nonce := 0, pc := Pc.search_head }

/-- After the round-start wait: build the payload of the round, then go on. -/
def mine_round_start (g : Globals) (w : Worker) : Worker :=
  mine_solved_wait g { w with data := payload w.process_id g.current_block }

/-- The block a winning thread stores in `ledger[block_count]`. -/
def new_block (now : Int) (g : Globals) (w : Worker) : Block :=
  { block_id := g.block_count
    process_id := w.process_id
    timestamp := now
    data := strncpy 256 w.data
    nonce := w.nonce
    prev_hash := strncpy 65 w.prev_hash }

/-- One atomic step of a mining thread; `now` is what `time (NULL)` returns
should the step commit a block. For a thread blocked in `pthread_cond_wait`
the step is its wake-up. -/
def mine_step (now : Int) (g : Globals) (w : Worker) : Globals × Worker :=
  match w.pc with
  | Pc.lock_round =>
    if !g.simulation_running || decide (g.current_block ≥ g.max_blocks) then
      (g, { w with pc := Pc.wait_round })
    else (g, mine_round_start g w)
  | Pc.wait_round =>
    if !g.simulation_running && decide (g.current_block ≥ g.max_blocks) then
      (g, { w with pc := Pc.returned })
    else if !g.simulation_running || decide (g.current_block ≥ g.max_blocks) then
      (g, { w with pc := Pc.wait_round })
    else (g, mine_round_start g w)
  | Pc.wait_solved => (g, mine_solved_wait g w)
  | Pc.search_head =>
    if g.simulation_running && decide (g.current_block < g.max_blocks) then
      (g, { w with pc := Pc.search_hash })
    else (g, { w with pc := Pc.lock_round })
  | Pc.search_hash =>
    let hash := simple_hash w.data w.nonce w.prev_hash
    if meets_difficulty g.difficulty hash then
      (g, { w with hash := hash, pc := Pc.commit })
    else (g, { w with hash := hash, nonce := (w.nonce + 1) % U64, pc := Pc.search_head })
  | Pc.commit =>
    if !g.block_solved && decide (g.current_block < g.max_blocks) then
      ({ g with
          ledger := g.ledger.set g.block_count (some (new_block now g w))
          block_count := g.block_count + 1
          current_block := g.current_block + 1
          block_solved := false },
       { w with prev_hash := snprintf 65 (fmt_lx w.hash), pc := Pc.lock_round })
    else (g, { w with pc := Pc.lock_round })
  | Pc.returned => (g, w)

/-! ## The menu thread -/

/-- Value `strtol (input, NULL, 10)` returns when the text in `input` reads as
the number `typed`: the number itself, saturated to the range of `long`. -/
def strtol (typed : Int) : Int :=
  if typed > 9223372036854775807 then 9223372036854775807
  else if typed < -9223372036854775808 then -9223372036854775808
  else typed

/-- The conversion `(int) x` of a `long`: its low 32 bits in two's complement. -/
def long_to_int (x : Int) : Int := (x + 2147483648) % 4294967296 - 2147483648

/-- The call `atoi (input)`, which is `(int) strtol (input, NULL, 10)`. -/
def atoi (typed : Int) : Int := long_to_int (strtol typed)

/-- The menu entries that act on the program state; the two Set entries carry
the number typed at their prompt. -/
inductive Cmd where
  | start
  | stop
  | set_max_blocks (typed : Int)
  | set_difficulty (typed : Int)
  | view_ledger
  | exit
deriving DecidableEq, Repr

/-- The line a menu entry prints in the status window. -/
inductive Msg where
  | none
  | started
  | stopped
  | max_blocks_set (n : Nat)
  | invalid_max_blocks
  | difficulty_set (d : Nat)
  | invalid_difficulty
  | ledger_view (blocks : List (Option Block))
  | exiting
deriving DecidableEq, Repr

/-- The call `realloc (ledger, n * sizeof (Block))`, assumed to succeed: the
first `min n length` cells are kept, any further cell is fresh. -/
def realloc (ledger : List (Option Block)) (n : Nat) : List (Option Block) :=
  ledger.take n ++ List.replicate (n - ledger.length) none

/-- One menu entry of `ui_thread` (the `case 10` switch); in the two Set
entries `atoi typed` is the local `new_max`, respectively `new_diff`. -/
def ui_step (g : Globals) : Cmd → Globals × Msg
  | Cmd.start =>
    if !g.simulation_running then
      ({ g with simulation_running := true, block_solved := false,
                current_block := g.block_count }, Msg.started)
    else (g, Msg.none)
  | Cmd.stop =>
    if g.simulation_running then ({ g with simulation_running := false }, Msg.stopped)
    else (g, Msg.none)
  | Cmd.set_max_blocks typed =>
    if atoi typed > 0 ∧ atoi typed ≤ 100 then
      ({ g with max_blocks := (atoi typed).toNat,
                ledger := realloc g.ledger (atoi typed).toNat },
       Msg.max_blocks_set (atoi typed).toNat)
    else (g, Msg.invalid_max_blocks)
  | Cmd.set_difficulty typed =>
    if atoi typed ≥ 1 ∧ atoi typed ≤ 8 then
      ({ g with difficulty := (atoi typed).toNat }, Msg.difficulty_set (atoi typed).toNat)
    else (g, Msg.invalid_difficulty)
  | Cmd.view_ledger =>
    (g, Msg.ledger_view ((List.range g.block_count).map (fun i => g.ledger[i]?.join)))
  | Cmd.exit => ({ g with simulation_running := false }, Msg.exiting)

/-! ## The whole program -/

/-- Globals, the locals of every mining thread, and whether `ui_thread` has returned. -/
structure State where
  g : Globals
  workers : List Worker
  ui_exited : Bool
deriving DecidableEq, Repr

/-- A scheduling step: a menu entry, or one step of mining thread `i`. -/
inductive Event where
  | ui (c : Cmd)
  | worker (i : Nat) (now : Int)
deriving DecidableEq, Repr

/-- Locals of a mining thread when it starts: `prev_hash = "0"`. -/
def worker_init (process_id : Nat) : Worker :=
  { process_id := process_id, data := [], nonce := 0, prev_hash := genesis, hash := 0,
    pc := Pc.lock_round }

/-- State after the initialisation in `main`, with `n` mining threads. -/
def init (n : Nat) : State :=
  { g := { ledger := List.replicate 20 none, block_count := 0, max_blocks := 20,
           difficulty := 4, block_solved := false, current_block := 0,
           simulation_running := false }
    workers := (List.range n).map worker_init
    ui_exited := false }

/-- One step of the program. -/
def step (s : State) : Event → State
  | Event.ui c =>
    if s.ui_exited then s
    else { s with g := (ui_step s.g c).1, ui_exited := decide (c = Cmd.exit) }
  | Event.worker i now =>
    match s.workers[i]? with
    | none => s
    | some w =>
      { s with g := (mine_step now s.g w).1, workers := s.workers.set i (mine_step now s.g w).2 }

/-- A run: the steps of `es` in order. -/
def run (s : State) (es : List Event) : State := es.foldl step s

/-- States the program can be in. -/
def Reachable (s : State) : Prop := ∃ n es, s = run (init n) es

/-- Cell `i` of the ledger, `none` when outside the allocation or never written. -/
def block_at (g : Globals) (i : Nat) : Option Block := g.ledger[i]?.join

/-! ## The specification's reading of the puzzle -/

/-- Decimal rendering of a number, as the specification means it. -/
def decimal (n : Nat) : List Nat :=
  if n = 0 then [48] else (Nat.digits 10 n).reverse.map (fun d => 48 + d)

/-- The rolling hash of the specification: fold `h * 31 + byte` with 64-bit
wraparound over `prevHash ++ payload ++ decimal nonce`. -/
def spec_hash (prevHash payload : List Nat) (nonce : Nat) : Nat :=
  (prevHash ++ payload ++ decimal nonce).foldl (fun h b => (h * 31 + b) % 2 ^ 64) 0

/-! ## Invariants -/

/-- What holds of the globals in every state the program reaches. -/
structure GInv (g : Globals) : Prop where
  cur_eq : g.current_block = g.block_count
  unsolved : g.block_solved = false
  alloc : g.ledger.length = g.max_blocks
  diff_lo : 1 ≤ g.difficulty
  diff_hi : g.difficulty ≤ 8
  max_lo : 1 ≤ g.max_blocks
  max_hi : g.max_blocks ≤ 100
  cells : ∀ i b, block_at g i = some b →
    b.block_id = i ∧ i < g.block_count ∧ simple_hash b.data b.nonce b.prev_hash % 16 = 0

/-- What holds of the locals of a mining thread in every state the program
reaches: the strings fit their buffers, and a thread about to commit holds the
hash of its own `data`, `nonce`, `prev_hash`, with four low zero bits. -/
structure WInv (w : Worker) : Prop where
  data_len : w.data.length ≤ 255
  prev_len : w.prev_hash.length ≤ 64
  found : w.pc = Pc.commit →
    w.hash = simple_hash w.data w.nonce w.prev_hash ∧ w.hash % 16 = 0

/-- The invariant of the program. -/
def Inv (s : State) : Prop := GInv s.g ∧ ∀ w ∈ s.workers, WInv w

/-- Text of a block's hash, as the winner keeps it:
`snprintf (prev_hash, 65, "%lx", hash)`. -/
def block_hash_text (b : Block) : CStr :=
  snprintf 65 (fmt_lx (simple_hash b.data b.nonce b.prev_hash))

/-- Block 0 of the ledger, when held, starts from the genesis value. -/
def GenesisFirst (g : Globals) : Prop := ∀ b, block_at g 0 = some b → b.prev_hash = genesis

/-- Each block held in the ledger next to its predecessor stores the text of
the predecessor's hash. -/
def Chained (g : Globals) : Prop :=
  ∀ i b b', block_at g i = some b → block_at g (i + 1) = some b' →
    b'.prev_hash = block_hash_text b

/-- Invariant behind `GenesisFirst`: while the ledger is empty every thread
still holds the genesis value. -/
def GenesisInv (s : State) : Prop :=
  GenesisFirst s.g ∧ (s.g.block_count = 0 → ∀ w ∈ s.workers, w.prev_hash = genesis)

/-- Invariant behind `Chained` for a program with a single mining thread: the
thread holds the text of the hash of the last block. -/
def SoloInv (s : State) : Prop :=
  Chained s.g ∧ ∃ w, s.workers = [w] ∧
    ∀ b, 0 < s.g.block_count → block_at s.g (s.g.block_count - 1) = some b →
      w.prev_hash = block_hash_text b

/-- The ledger is within its capacity and holds a block at every index below
`block_count`. -/
def Full (g : Globals) : Prop :=
  g.block_count ≤ g.max_blocks ∧ ∀ i, i < g.block_count → ∃ b, block_at g i = some b

/-- No step of the run is an accepted Set-max-blocks request for fewer blocks
than are committed at that moment. -/
def no_shrink : State → List Event → Prop
  | _, [] => True
  | s, e :: es =>
    (∀ n : Int, e = Event.ui (Cmd.set_max_blocks n) → 0 < atoi n → atoi n ≤ 100 →
      (s.g.block_count : Int) ≤ atoi n) ∧ no_shrink (step s e) es

/-! ## Runs used as concrete inputs -/

/-- Start the simulation and set the difficulty to 1. -/
def start_easy : List Event := [Event.ui Cmd.start, Event.ui (Cmd.set_difficulty 1)]

/-- Thread 0 mines block 0 alone, then thread 1 mines block 1 alone. -/
def chain_trace : List Event :=
  start_easy ++ List.replicate 34 (Event.worker 0 1000) ++ List.replicate 30 (Event.worker 1 1001)

/-- Threads 0 and 1 both start a search for round 0; thread 0 commits first;
thread 1 then finds its nonce and stands before its commit. -/
def stale_trace : List Event :=
  start_easy ++ [Event.worker 0 1000, Event.worker 1 1000]
    ++ List.replicate 33 (Event.worker 0 1000) ++ List.replicate 30 (Event.worker 1 1001)

/-- Thread 0 mines blocks 0 and 1. -/
def two_blocks_trace : List Event :=
  start_easy ++ List.replicate 66 (Event.worker 0 1000)

/-- Thread 0 finds a nonce for round 0; the Exit entry is chosen before its commit. -/
def exit_before_commit_trace : List Event :=
  start_easy ++ List.replicate 33 (Event.worker 0 1000) ++ [Event.ui Cmd.exit]

/-- All three threads park in the round-start wait, then the Exit entry is chosen. -/
def exit_trace : List Event :=
  [Event.worker 0 1000, Event.worker 1 1000, Event.worker 2 1000, Event.ui Cmd.exit]

/-! ## Puzzle theorems -/

set_option maxRecDepth 1000000

theorem mask_eq (d : Nat) (h8 : d ≤ 15) :
    ((1 <<< (d * 4)) % U64 + U64 - 1) % U64 = 2 ^ (4 * d) - 1 := by
  have h1 : (1 : Nat) <<< (d * 4) = 2 ^ (4 * d) := by rw [Nat.one_shiftLeft, Nat.mul_comm]
  have h2 : 2 ^ (4 * d) < U64 := by
    unfold U64
    exact Nat.pow_lt_pow_right (by norm_num) (by omega)
  have h3 : 0 < 2 ^ (4 * d) := by positivity
  rw [h1, Nat.mod_eq_of_lt h2]
  have h4 : 2 ^ (4 * d) + U64 - 1 = (2 ^ (4 * d) - 1) + U64 := by omega
  rw [h4, Nat.add_mod_right, Nat.mod_eq_of_lt (by omega)]

theorem meets_difficulty_eq_mod (d hash : Nat) (h8 : d ≤ 15) :
    meets_difficulty d hash = decide (hash % 2 ^ (4 * d) = 0) := by
  unfold meets_difficulty
  simp only [mask_eq d h8, Nat.and_pow_two_sub_one_eq_mod]
  by_cases h : hash % 2 ^ (4 * d) = 0 <;> simp [h]

theorem mod_two_pow_eq_zero_iff_testBit (x n : Nat) :
    x % 2 ^ n = 0 ↔ ∀ i, i < n → x.testBit i = false := by
  constructor
  · intro h i hi
    have := Nat.testBit_mod_two_pow x n i
    rw [h] at this
    simpa [hi] using this.symm
  · intro h
    apply Nat.eq_of_testBit_eq
    intro i
    rw [Nat.testBit_mod_two_pow]
    by_cases hi : i < n
    · simp [hi, h i hi]
    · simp [hi]

/-- C5: for a difficulty between 1 and 8, `meets_difficulty` accepts a hash
exactly when the hash is a multiple of `16 ^ difficulty`, that is when its low
`4 * difficulty` bits are all zero; at difficulty 1 it accepts exactly the
hashes whose low four bits are zero. -/
theorem meets_difficulty_iff_low_bits_zero (d hash : Nat) (h1 : 1 ≤ d) (h8 : d ≤ 8) :
    (meets_difficulty d hash = true ↔ hash % 16 ^ d = 0) ∧
    (meets_difficulty d hash = true ↔ ∀ i, i < 4 * d → hash.testBit i = false) ∧
    (meets_difficulty 1 hash = true ↔ ∀ i, i < 4 → hash.testBit i = false) := by
  have h16 : (16 : Nat) ^ d = 2 ^ (4 * d) := by
    rw [pow_mul]; norm_num
  refine ⟨?_, ?_, ?_⟩
  · rw [meets_difficulty_eq_mod d hash (by omega), h16]; simp
  · rw [meets_difficulty_eq_mod d hash (by omega), ← mod_two_pow_eq_zero_iff_testBit]; simp
  · rw [meets_difficulty_eq_mod 1 hash (by omega), ← mod_two_pow_eq_zero_iff_testBit]; simp

theorem meets_difficulty_iff_low_bits_zero_witness :
    (meets_difficulty 2 768 = true ↔ 768 % 16 ^ 2 = 0) ∧
    (meets_difficulty 2 768 = true ↔ ∀ i, i < 4 * 2 → Nat.testBit 768 i = false) ∧
    (meets_difficulty 1 768 = true ↔ ∀ i, i < 4 → Nat.testBit 768 i = false) :=
  meets_difficulty_iff_low_bits_zero 2 768 (by decide) (by decide)



theorem fmt_digits_ten (fuel : Nat) : ∀ (n : Nat) (acc : List Nat), 0 < n → n < fuel →
    fmt_digits 10 fuel n acc = (Nat.digits 10 n).reverse.map (fun d => 48 + d) ++ acc := by
  induction fuel with
  | zero => intro n acc _ h; omega
  | succ fuel ih =>
    intro n acc hn hf
    have hd : n % 10 < 10 := Nat.mod_lt _ (by norm_num)
    rw [Nat.digits_def' (by norm_num) hn]
    simp only [fmt_digits, hd, if_true]
    by_cases hq : n / 10 = 0
    · simp [hq]
    · rw [if_neg hq, ih (n / 10) _ (Nat.pos_of_ne_zero hq) (by omega)]
      simp

theorem fmt_lu_eq_decimal (n : Nat) : fmt_lu n = decimal n := by
  unfold fmt_lu decimal
  by_cases h : n = 0
  · subst h; rfl
  · rw [if_neg h, fmt_digits_ten (n + 1) n [] (Nat.pos_of_ne_zero h) (by omega)]
    simp

theorem decimal_length (n : Nat) (hn : n < 2 ^ 64) : (decimal n).length ≤ 20 := by
  unfold decimal
  by_cases h : n = 0
  · simp [h]
  · rw [if_neg h]
    simp only [List.length_map, List.length_reverse]
    have h1 := Nat.base_pow_length_digits_le 10 n (by norm_num) h
    have h2 : 10 ^ (Nat.digits 10 n).length < 10 ^ 21 := by
      calc 10 ^ (Nat.digits 10 n).length ≤ 10 * n := h1
        _ < 10 ^ 21 := by norm_num at hn ⊢; omega
    have h3 := (Nat.pow_lt_pow_iff_right (by norm_num : 1 < 10)).mp h2
    omega

theorem decimal_bytes (n : Nat) : ∀ b ∈ decimal n, 0 < b ∧ b < 128 := by
  intro b hb
  unfold decimal at hb
  by_cases h : n = 0
  · simp [h] at hb; omega
  · rw [if_neg h] at hb
    simp only [List.mem_map, List.mem_reverse] at hb
    obtain ⟨d, hd, rfl⟩ := hb
    have := Nat.digits_lt_base (by norm_num : 1 < 10) hd
    omega

theorem hash_loop_eq_foldl (l : List Nat) : ∀ (h : Nat), (∀ b ∈ l, 0 < b ∧ b < 128) →
    hash_loop l h = l.foldl (fun h b => (h * 31 + b) % 2 ^ 64) h := by
  induction l with
  | nil => intro h _; rfl
  | cons b rest ih =>
    intro h hl
    have hb := hl b (List.mem_cons_self _ _)
    have hne : b ≠ 0 := by omega
    simp only [hash_loop, if_neg hne, List.foldl_cons, char_to_ulong, if_pos hb.2, U64]
    exact ih _ (fun c hc => hl c (List.mem_cons_of_mem _ hc))

theorem fmt_s_eq_self (s : List Nat) (hs : ∀ b ∈ s, 0 < b ∧ b < 128) : fmt_s s = s := by
  unfold fmt_s
  rw [List.takeWhile_eq_self_iff]
  intro b hb
  have := hs b hb
  simp; omega

/-- C4: for a nonce below `2 ^ 64` and NUL-free 7-bit strings `prev_hash` (at
most 64 bytes) and `data` (at most 255 bytes), `simple_hash` is the rolling
hash of the specification, the left fold of `h * 31 + b` modulo `2 ^ 64` over
the bytes of `prev_hash ++ data ++ decimal nonce`; the 512-byte buffer holds
that text whole; and the hash of `"0"`, `"X"`, `0` is 48904. -/
theorem simple_hash_eq_spec_hash (data prev_hash : List Nat) (nonce : Nat)
    (hn : nonce < 2 ^ 64)
    (hp : ∀ b ∈ prev_hash, 0 < b ∧ b < 128) (hpl : prev_hash.length ≤ 64)
    (hd : ∀ b ∈ data, 0 < b ∧ b < 128) (hdl : data.length ≤ 255) :
    simple_hash data nonce prev_hash = spec_hash prev_hash data nonce ∧
    snprintf 512 (fmt_s prev_hash ++ fmt_s data ++ fmt_lu nonce)
      = prev_hash ++ data ++ decimal nonce ∧
    simple_hash [88] 0 [48] = 48904 := by
  have hlen := decimal_length nonce hn
  have hbuf : snprintf 512 (fmt_s prev_hash ++ fmt_s data ++ fmt_lu nonce)
      = prev_hash ++ data ++ decimal nonce := by
    rw [fmt_s_eq_self _ hp, fmt_s_eq_self _ hd, fmt_lu_eq_decimal]
    unfold snprintf
    apply List.take_of_length_le
    simp only [List.length_append]
    omega
  refine ⟨?_, hbuf, by decide⟩
  unfold simple_hash spec_hash
  rw [hbuf]
  apply hash_loop_eq_foldl
  intro b hb
  simp only [List.mem_append] at hb
  rcases hb with (hb | hb) | hb
  · exact hp b hb
  · exact hd b hb
  · exact decimal_bytes nonce b hb

theorem simple_hash_eq_spec_hash_witness :
    simple_hash [80, 49] 15 [48] = spec_hash [48] [80, 49] 15 ∧
    snprintf 512 (fmt_s [48] ++ fmt_s [80, 49] ++ fmt_lu 15) = [48] ++ [80, 49] ++ decimal 15 ∧
    simple_hash [88] 0 [48] = 48904 :=
  simple_hash_eq_spec_hash [80, 49] [48] 15 (by norm_num) (by decide) (by decide)
    (by decide) (by decide)


/-! ## Runs -/

theorem run_append (s : State) (es fs : List Event) : run s (es ++ fs) = run (run s es) fs := by
  simp [run, List.foldl_append]

theorem run_cons (s : State) (e : Event) (es : List Event) :
    run s (e :: es) = run (step s e) es := rfl

/-! ## Input validation -/

theorem join_realloc (l : List (Option Block)) (n i : Nat) (b : Block)
    (h : (realloc l n)[i]?.join = some b) : l[i]?.join = some b := by
  unfold realloc at h
  rw [List.getElem?_append] at h
  split at h
  · rename_i hi
    rw [List.getElem?_take_of_lt (by simp at hi; omega)] at h
    exact h
  · rw [List.getElem?_replicate] at h
    split at h <;> simp at h

theorem join_set (l : List (Option Block)) (j i : Nat) (nb b : Block)
    (h : (l.set j (some nb))[i]?.join = some b) :
    (i = j ∧ b = nb) ∨ l[i]?.join = some b := by
  rw [List.getElem?_set] at h
  split at h
  · rename_i hij
    split at h
    · left; simp at h; exact ⟨hij.symm, h.symm⟩
    · simp at h
  · right; exact h

theorem payload_length (p c : Nat) : (payload p c).length ≤ 255 := by
  unfold payload snprintf
  rw [List.length_take]
  omega

theorem meets_difficulty_low_nibble (d hash : Nat) (h1 : 1 ≤ d) (h8 : d ≤ 8)
    (h : meets_difficulty d hash = true) : hash % 16 = 0 := by
  rw [meets_difficulty_eq_mod d hash (by omega)] at h
  have h0 : hash % 2 ^ (4 * d) = 0 := by simpa using h
  have hdvd : (16 : Nat) ∣ 2 ^ (4 * d) := by
    have : (2 : Nat) ^ (4 * d) = 16 * 2 ^ (4 * (d - 1)) := by
      have : 4 * d = 4 + 4 * (d - 1) := by omega
      rw [this, pow_add]; norm_num
    exact ⟨_, this⟩
  exact Nat.mod_eq_zero_of_dvd (dvd_trans hdvd (Nat.dvd_of_mod_eq_zero h0))

theorem mine_solved_wait_WInv (g : Globals) (w : Worker)
    (hd : w.data.length ≤ 255) (hp : w.prev_hash.length ≤ 64) : WInv (mine_solved_wait g w) := by
  unfold mine_solved_wait
  split
  · exact ⟨hd, hp, fun h => by simp at h⟩
  · split
    · exact ⟨hd, hp, fun h => by simp at h⟩
    · exact ⟨hd, hp, fun h => by simp at h⟩

theorem mine_round_start_WInv (g : Globals) (w : Worker) (hw : WInv w) :
    WInv (mine_round_start g w) :=
  mine_solved_wait_WInv g _ (payload_length _ _) hw.prev_len

theorem ui_step_GInv (g : Globals) (c : Cmd) (h : GInv g) : GInv (ui_step g c).1 := by
  cases c with
  | start =>
    simp only [ui_step]
    split
    · exact ⟨rfl, rfl, h.alloc, h.diff_lo, h.diff_hi, h.max_lo, h.max_hi, h.cells⟩
    · exact h
  | stop =>
    simp only [ui_step]
    split
    · exact ⟨h.cur_eq, h.unsolved, h.alloc, h.diff_lo, h.diff_hi, h.max_lo, h.max_hi, h.cells⟩
    · exact h
  | set_max_blocks n =>
    simp only [ui_step]
    split
    · rename_i hn
      refine ⟨h.cur_eq, h.unsolved, ?_, h.diff_lo, h.diff_hi, ?_, ?_, ?_⟩
      · simp only [realloc, List.length_append, List.length_take, List.length_replicate]
        omega
      · show 1 ≤ (atoi n).toNat
        omega
      · show (atoi n).toNat ≤ 100
        omega
      · intro i b hb
        exact h.cells i b (join_realloc _ _ _ _ hb)
    · exact h
  | set_difficulty d =>
    simp only [ui_step]
    split
    · rename_i hd
      refine ⟨h.cur_eq, h.unsolved, h.alloc, ?_, ?_, h.max_lo, h.max_hi, h.cells⟩
      · show 1 ≤ (atoi d).toNat
        omega
      · show (atoi d).toNat ≤ 8
        omega
    · exact h
  | view_ledger => exact h
  | exit => exact ⟨h.cur_eq, h.unsolved, h.alloc, h.diff_lo, h.diff_hi, h.max_lo, h.max_hi, h.cells⟩

theorem commit_GInv (now : Int) (g : Globals) (w : Worker) (hg : GInv g) (hw : WInv w)
    (hpc : w.pc = Pc.commit) :
    GInv { g with
      ledger := g.ledger.set g.block_count (some (new_block now g w))
      block_count := g.block_count + 1
      current_block := g.current_block + 1
      block_solved := false } := by
  refine ⟨?_, rfl, ?_, hg.diff_lo, hg.diff_hi, hg.max_lo, hg.max_hi, ?_⟩
  · show g.current_block + 1 = g.block_count + 1
    rw [hg.cur_eq]
  · show (g.ledger.set g.block_count (some (new_block now g w))).length = g.max_blocks
    rw [List.length_set, hg.alloc]
  · intro i b hb
    show b.block_id = i ∧ i < g.block_count + 1 ∧ _
    rcases join_set _ _ _ _ _ hb with ⟨hi, hbn⟩ | hold
    · subst hi hbn
      refine ⟨rfl, Nat.lt_succ_self _, ?_⟩
      have hd : strncpy 256 w.data = w.data := List.take_of_length_le (by have := hw.data_len; omega)
      have hp : strncpy 65 w.prev_hash = w.prev_hash :=
        List.take_of_length_le (by have := hw.prev_len; omega)
      show simple_hash (strncpy 256 w.data) w.nonce (strncpy 65 w.prev_hash) % 16 = 0
      rw [hd, hp, ← (hw.found hpc).1]
      exact (hw.found hpc).2
    · have := hg.cells i b hold
      exact ⟨this.1, by omega, this.2.2⟩

theorem mine_step_inv (now : Int) (g : Globals) (w : Worker) (hg : GInv g) (hw : WInv w) :
    GInv (mine_step now g w).1 ∧ WInv (mine_step now g w).2 := by
  unfold mine_step
  split
  · split
    · exact ⟨hg, hw.data_len, hw.prev_len, fun h => by simp at h⟩
    · exact ⟨hg, mine_round_start_WInv g w hw⟩
  · split
    · exact ⟨hg, hw.data_len, hw.prev_len, fun h => by simp at h⟩
    · split
      · exact ⟨hg, hw.data_len, hw.prev_len, fun h => by simp at h⟩
      · exact ⟨hg, mine_round_start_WInv g w hw⟩
  · exact ⟨hg, mine_solved_wait_WInv g w hw.data_len hw.prev_len⟩
  · split
    · exact ⟨hg, hw.data_len, hw.prev_len, fun h => by simp at h⟩
    · exact ⟨hg, hw.data_len, hw.prev_len, fun h => by simp at h⟩
  · dsimp only
    split
    · rename_i hm
      exact ⟨hg, hw.data_len, hw.prev_len, fun _ =>
        ⟨rfl, meets_difficulty_low_nibble _ _ hg.diff_lo hg.diff_hi hm⟩⟩
    · exact ⟨hg, hw.data_len, hw.prev_len, fun h => by simp at h⟩
  · rename_i hpc
    split
    · rename_i hguard
      refine ⟨commit_GInv now g w hg hw hpc, hw.data_len, ?_, fun h => by simp at h⟩
      show (snprintf 65 (fmt_lx w.hash)).length ≤ 64
      unfold snprintf
      rw [List.length_take]
      omega
    · exact ⟨hg, hw.data_len, hw.prev_len, fun h => by simp at h⟩
  · exact ⟨hg, hw⟩

theorem step_Inv (s : State) (e : Event) (h : Inv s) : Inv (step s e) := by
  cases e with
  | ui c =>
    simp only [step]
    split
    · exact h
    · exact ⟨ui_step_GInv s.g c h.1, h.2⟩
  | worker i now =>
    simp only [step]
    split
    · exact h
    · rename_i w hw
      have hmem : w ∈ s.workers := List.getElem?_mem hw
      have := mine_step_inv now s.g w h.1 (h.2 w hmem)
      refine ⟨this.1, ?_⟩
      intro w' hw'
      rcases List.mem_or_eq_of_mem_set hw' with h1 | h1
      · exact h.2 w' h1
      · rw [h1]; exact this.2

theorem init_Inv (n : Nat) : Inv (init n) := by
  refine ⟨⟨rfl, rfl, rfl, by simp [init], by simp [init], by simp [init], by simp [init], ?_⟩, ?_⟩
  · intro i b hb
    simp only [block_at, init, List.getElem?_replicate] at hb
    split at hb <;> simp at hb
  · intro w hw
    simp only [init, List.mem_map] at hw
    obtain ⟨p, _, rfl⟩ := hw
    exact ⟨by simp [worker_init], by simp [worker_init, genesis], fun h => by simp [worker_init] at h⟩

theorem run_Inv (es : List Event) : ∀ s, Inv s → Inv (run s es) := by
  induction es with
  | nil => intro s h; exact h
  | cons e es ih => intro s h; exact ih _ (step_Inv s e h)

/-- In every state the program reaches: `current_block = block_count`,
`block_solved = 0`, the ledger has `max_blocks` cells with `max_blocks` in
1..100, `difficulty` is in 1..8, and every block held in a ledger cell `i` has
`block_id = i`, `i < block_count` and a hash with four low zero bits. -/
theorem reachable_inv (s : State) (h : Reachable s) : Inv s := by
  obtain ⟨n, es, rfl⟩ := h
  exact run_Inv es _ (init_Inv n)

theorem commit_write_in_bounds (g : Globals) (hg : GInv g)
    (h : g.current_block < g.max_blocks) : g.block_count < g.ledger.length := by
  rw [hg.alloc, ← hg.cur_eq]
  exact h

theorem mine_step_globals (now : Int) (g : Globals) (w : Worker) :
    (mine_step now g w).1 = g ∨
    (g.current_block < g.max_blocks ∧
      (mine_step now g w).1 = { g with
        ledger := g.ledger.set g.block_count (some (new_block now g w))
        block_count := g.block_count + 1
        current_block := g.current_block + 1
        block_solved := false }) := by
  unfold mine_step
  split
  · split <;> simp
  · split
    · simp
    · split <;> simp
  · simp
  · split <;> simp
  · dsimp only
    split <;> simp
  · split
    · rename_i hguard
      right
      simp at hguard
      exact ⟨hguard.2, rfl⟩
    · simp
  · simp

theorem ui_step_Full (g : Globals) (c : Cmd) (hf : Full g)
    (hc : ∀ n : Int, c = Cmd.set_max_blocks n → 0 < atoi n → atoi n ≤ 100 →
      (g.block_count : Int) ≤ atoi n) :
    Full (ui_step g c).1 := by
  cases c with
  | start => simp only [ui_step]; split <;> exact hf
  | stop => simp only [ui_step]; split <;> exact hf
  | set_max_blocks n =>
    simp only [ui_step]
    split
    · rename_i hn
      have hle := hc n rfl hn.1 hn.2
      refine ⟨?_, ?_⟩
      · show g.block_count ≤ (atoi n).toNat
        omega
      · intro i hi
        obtain ⟨b, hb⟩ := hf.2 i hi
        refine ⟨b, ?_⟩
        have hi' : i < g.block_count := hi
        have hlen : i < g.ledger.length := by
          by_contra hcon
          simp only [block_at, List.getElem?_eq_none (Nat.le_of_not_lt hcon)] at hb
          simp at hb
        show (realloc g.ledger (atoi n).toNat)[i]?.join = some b
        unfold realloc
        rw [List.getElem?_append_left (by rw [List.length_take]; omega),
          List.getElem?_take_of_lt (by omega)]
        exact hb
    · exact hf
  | set_difficulty d => simp only [ui_step]; split <;> exact hf
  | view_ledger => exact hf
  | exit => exact hf

theorem mine_step_Full (now : Int) (g : Globals) (w : Worker) (hg : GInv g) (hf : Full g) :
    Full (mine_step now g w).1 := by
  rcases mine_step_globals now g w with h | ⟨hlt, h⟩
  · rw [h]; exact hf
  · rw [h]
    have hin := commit_write_in_bounds g hg hlt
    refine ⟨?_, ?_⟩
    · show g.block_count + 1 ≤ g.max_blocks
      have := hg.cur_eq
      omega
    · intro i hi
      have hi' : i < g.block_count + 1 := hi
      show ∃ b, (g.ledger.set g.block_count (some (new_block now g w)))[i]?.join = some b
      rw [List.getElem?_set]
      by_cases hij : g.block_count = i
      · rw [if_pos hij, if_pos hin]
        exact ⟨_, rfl⟩
      · rw [if_neg hij]
        exact hf.2 i (by omega)

theorem step_Full (s : State) (e : Event) (hi : Inv s) (hf : Full s.g)
    (hc : ∀ n : Int, e = Event.ui (Cmd.set_max_blocks n) → 0 < atoi n → atoi n ≤ 100 →
      (s.g.block_count : Int) ≤ atoi n) : Full (step s e).g := by
  cases e with
  | ui c =>
    simp only [step]
    split
    · exact hf
    · exact ui_step_Full s.g c hf (fun n hn => hc n (by rw [hn]))
  | worker i now =>
    simp only [step]
    split
    · exact hf
    · exact mine_step_Full now s.g _ hi.1 hf

theorem run_Full (es : List Event) : ∀ s, Inv s → Full s.g → no_shrink s es →
    Full (run s es).g := by
  induction es with
  | nil => intro s _ hf _; exact hf
  | cons e es ih =>
    intro s hi hf hn
    exact ih _ (step_Inv s e hi) (step_Full s e hi hf hn.1) hn.2

/-- In a run without an accepted Set-max-blocks request below the number of
committed blocks, `block_count` stays within `max_blocks` and every index below
`block_count` holds a block whose `block_id` is that index and whose hash has
four low zero bits. -/
theorem no_shrink_ledger_complete (n : Nat) (es : List Event) (h : no_shrink (init n) es) :
    (run (init n) es).g.block_count ≤ (run (init n) es).g.max_blocks ∧
    ∀ i, i < (run (init n) es).g.block_count →
      ∃ b, block_at (run (init n) es).g i = some b ∧ b.block_id = i ∧
        simple_hash b.data b.nonce b.prev_hash % 16 = 0 := by
  have hinv := run_Inv es _ (init_Inv n)
  have hfull := run_Full es (init n) (init_Inv n)
    ⟨by simp [init], fun i hi => by simp [init] at hi⟩ h
  refine ⟨hfull.1, fun i hi => ?_⟩
  obtain ⟨b, hb⟩ := hfull.2 i hi
  have := hinv.1.cells i b hb
  exact ⟨b, hb, this.1, this.2.2⟩

theorem no_shrink_ledger_complete_witness :
    (run (init 1) two_blocks_trace).g.block_count ≤ (run (init 1) two_blocks_trace).g.max_blocks ∧
    ∀ i, i < (run (init 1) two_blocks_trace).g.block_count →
      ∃ b, block_at (run (init 1) two_blocks_trace).g i = some b ∧ b.block_id = i ∧
        simple_hash b.data b.nonce b.prev_hash % 16 = 0 :=
  no_shrink_ledger_complete 1 two_blocks_trace (by
    simp only [two_blocks_trace, start_easy, List.replicate, List.cons_append, List.nil_append,
      no_shrink]
    simp)

/-! ## Chain of hashes -/

theorem mine_solved_wait_prev (g : Globals) (w : Worker) :
    (mine_solved_wait g w).prev_hash = w.prev_hash := by
  unfold mine_solved_wait
  split
  · rfl
  · split <;> rfl

theorem mine_step_cases (now : Int) (g : Globals) (w : Worker) :
    ((mine_step now g w).1 = g ∧ (mine_step now g w).2.prev_hash = w.prev_hash) ∨
    (w.pc = Pc.commit ∧ g.current_block < g.max_blocks ∧
      (mine_step now g w).1 = { g with
        ledger := g.ledger.set g.block_count (some (new_block now g w))
        block_count := g.block_count + 1
        current_block := g.current_block + 1
        block_solved := false } ∧
      (mine_step now g w).2.prev_hash = snprintf 65 (fmt_lx w.hash)) := by
  unfold mine_step
  split
  · split
    · simp
    · simp [mine_round_start, mine_solved_wait_prev]
  · split
    · simp
    · split
      · simp
      · simp [mine_round_start, mine_solved_wait_prev]
  · simp [mine_solved_wait_prev]
  · split <;> simp
  · dsimp only
    split <;> simp
  · rename_i hpc
    split
    · rename_i hguard
      right
      simp at hguard
      exact ⟨hpc, hguard.2, rfl, rfl⟩
    · simp
  · simp

theorem strncpy_prev (w : Worker) (hw : WInv w) : strncpy 65 w.prev_hash = w.prev_hash :=
  List.take_of_length_le (by have := hw.prev_len; omega)

theorem strncpy_data (w : Worker) (hw : WInv w) : strncpy 256 w.data = w.data :=
  List.take_of_length_le (by have := hw.data_len; omega)

theorem ui_step_block_count (g : Globals) (c : Cmd) :
    (ui_step g c).1.block_count = g.block_count := by
  cases c <;> simp only [ui_step] <;> first | rfl | (split <;> rfl)

theorem ui_step_block_at (g : Globals) (c : Cmd) (i : Nat) (b : Block)
    (hb : block_at (ui_step g c).1 i = some b) : block_at g i = some b := by
  cases c with
  | start => simp only [ui_step] at hb; split at hb <;> exact hb
  | stop => simp only [ui_step] at hb; split at hb <;> exact hb
  | set_max_blocks n =>
    simp only [ui_step] at hb
    split at hb
    · exact join_realloc _ _ _ _ hb
    · exact hb
  | set_difficulty d => simp only [ui_step] at hb; split at hb <;> exact hb
  | view_ledger => exact hb
  | exit => exact hb

theorem step_GenesisInv (s : State) (e : Event) (hi : Inv s) (h : GenesisInv s) :
    GenesisInv (step s e) := by
  cases e with
  | ui c =>
    simp only [step]
    split
    · exact h
    · refine ⟨fun b hb => h.1 b (ui_step_block_at _ _ _ _ hb), fun h0 => h.2 ?_⟩
      have : (ui_step s.g c).1.block_count = 0 := h0
      rw [ui_step_block_count] at this
      exact this
  | worker i now =>
    simp only [step]
    split
    · exact h
    · rename_i w hw
      have hmem : w ∈ s.workers := List.getElem?_mem hw
      rcases mine_step_cases now s.g w with ⟨hg, hp⟩ | ⟨_, _, hg, _⟩
      · refine ⟨?_, ?_⟩
        · show GenesisFirst (mine_step now s.g w).1
          rw [hg]; exact h.1
        · intro h0 w' hw'
          have h0' : s.g.block_count = 0 := by
            have : (mine_step now s.g w).1.block_count = 0 := h0
            rw [hg] at this; exact this
          rcases List.mem_or_eq_of_mem_set hw' with h1 | h1
          · exact h.2 h0' w' h1
          · rw [h1, hp]; exact h.2 h0' w hmem
      · refine ⟨?_, ?_⟩
        · show GenesisFirst (mine_step now s.g w).1
          rw [hg]
          intro b hb
          rcases join_set _ _ _ _ _ hb with ⟨h0, hbn⟩ | hold
          · rw [hbn]
            show strncpy 65 w.prev_hash = genesis
            rw [strncpy_prev w (hi.2 w hmem)]
            exact h.2 h0.symm w hmem
          · exact h.1 b hold
        · intro h0
          have : (mine_step now s.g w).1.block_count = 0 := h0
          rw [hg] at this
          simp at this

theorem init_GenesisInv (n : Nat) : GenesisInv (init n) := by
  refine ⟨?_, ?_⟩
  · intro b hb
    simp only [block_at, init, List.getElem?_replicate] at hb
    split at hb <;> simp at hb
  · intro _ w hw
    simp only [init, List.mem_map] at hw
    obtain ⟨p, _, rfl⟩ := hw
    rfl

theorem run_GenesisInv (es : List Event) : ∀ s, Inv s → GenesisInv s → GenesisInv (run s es) := by
  induction es with
  | nil => intro s _ h; exact h
  | cons e es ih => intro s hi h; exact ih _ (step_Inv s e hi) (step_GenesisInv s e hi h)

/-- Whatever the number of mining threads and the run, block 0 of the ledger
was stored with `prev_hash = "0"`. -/
theorem genesis_first (n : Nat) (es : List Event) : GenesisFirst (run (init n) es).g :=
  (run_GenesisInv es _ (init_Inv n) (init_GenesisInv n)).1

theorem step_SoloInv (s : State) (e : Event) (hi : Inv s) (h : SoloInv s) :
    SoloInv (step s e) := by
  obtain ⟨hch, w0, hws, hlast⟩ := h
  cases e with
  | ui c =>
    simp only [step]
    split
    · exact ⟨hch, w0, hws, hlast⟩
    · refine ⟨?_, w0, hws, ?_⟩
      · intro i b b' hb hb'
        exact hch i b b' (ui_step_block_at _ _ _ _ hb) (ui_step_block_at _ _ _ _ hb')
      · intro b hpos hb
        have hbc := ui_step_block_count s.g c
        have hpos' : 0 < (ui_step s.g c).1.block_count := hpos
        have hb' : block_at (ui_step s.g c).1 ((ui_step s.g c).1.block_count - 1) = some b := hb
        rw [hbc] at hpos' hb'
        exact hlast b hpos' (ui_step_block_at _ _ _ _ hb')
  | worker i now =>
    simp only [step]
    split
    · exact ⟨hch, w0, hws, hlast⟩
    · rename_i w hw
      have hmem : w ∈ s.workers := List.getElem?_mem hw
      have hw0 : w = w0 := by rw [hws] at hmem; simpa using hmem
      have hi0 : i = 0 := by
        rw [hws] at hw
        cases i with
        | zero => rfl
        | succ k => simp at hw
      subst hw0 hi0
      have hset : s.workers.set 0 (mine_step now s.g w).2 = [(mine_step now s.g w).2] := by
        rw [hws]; rfl
      have hwinv := hi.2 w hmem
      rcases mine_step_cases now s.g w with ⟨hg, hp⟩ | ⟨hpc, _, hg, hp⟩
      · refine ⟨?_, _, hset, ?_⟩
        · show Chained (mine_step now s.g w).1
          rw [hg]; exact hch
        · show ∀ b, 0 < (mine_step now s.g w).1.block_count →
            block_at (mine_step now s.g w).1 ((mine_step now s.g w).1.block_count - 1) = some b →
            (mine_step now s.g w).2.prev_hash = block_hash_text b
          rw [hg, hp]; exact hlast
      · have hnb : block_hash_text (new_block now s.g w) = snprintf 65 (fmt_lx w.hash) := by
          show snprintf 65 (fmt_lx (simple_hash (strncpy 256 w.data) w.nonce
            (strncpy 65 w.prev_hash))) = _
          rw [strncpy_data w hwinv, strncpy_prev w hwinv, ← (hwinv.found hpc).1]
        refine ⟨?_, _, hset, ?_⟩
        · show Chained (mine_step now s.g w).1
          rw [hg]
          intro j b b' hb hb'
          rcases join_set _ _ _ _ _ hb' with ⟨hj, hbn⟩ | hold'
          · rcases join_set _ _ _ _ _ hb with ⟨hj2, _⟩ | hold
            · omega
            · rw [hbn]
              show strncpy 65 w.prev_hash = block_hash_text b
              rw [strncpy_prev w hwinv]
              have hpos : 0 < s.g.block_count := by omega
              have hidx : s.g.block_count - 1 = j := by omega
              exact hlast b hpos (by rw [hidx]; exact hold)
          · have hlt := (hi.1.cells (j + 1) b' hold').2.1
            rcases join_set _ _ _ _ _ hb with ⟨hj2, _⟩ | hold
            · omega
            · exact hch j b b' hold hold'
        · show ∀ b, 0 < (mine_step now s.g w).1.block_count →
            block_at (mine_step now s.g w).1 ((mine_step now s.g w).1.block_count - 1) = some b →
            (mine_step now s.g w).2.prev_hash = block_hash_text b
          rw [hg, hp]
          intro b _ hb
          have hb' : block_at { s.g with
              ledger := s.g.ledger.set s.g.block_count (some (new_block now s.g w))
              block_count := s.g.block_count + 1
              current_block := s.g.current_block + 1
              block_solved := false } s.g.block_count = some b := hb
          rcases join_set _ _ _ _ _ hb' with ⟨_, hbn⟩ | hold
          · rw [hbn, hnb]
          · have := (hi.1.cells _ b hold).2.1
            omega

theorem init_SoloInv : SoloInv (init 1) := by
  refine ⟨?_, worker_init 0, rfl, ?_⟩
  · intro i b b' hb _
    simp only [block_at, init, List.getElem?_replicate] at hb
    split at hb <;> simp at hb
  · intro b hpos _
    simp [init] at hpos

theorem run_SoloInv (es : List Event) : ∀ s, Inv s → SoloInv s → SoloInv (run s es) := by
  induction es with
  | nil => intro s _ h; exact h
  | cons e es ih => intro s hi h; exact ih _ (step_Inv s e hi) (step_SoloInv s e hi h)

/-- With a single mining thread, in every run, a block held in the ledger next
to its predecessor stores the text of the predecessor's hash. -/
theorem single_thread_chained (es : List Event) : Chained (run (init 1) es).g :=
  (run_SoloInv es _ (init_Inv 1) init_SoloInv).1

theorem hash_loop_lt (l : List Nat) : ∀ h, h < U64 → hash_loop l h < U64 := by
  induction l with
  | nil => intro h hh; exact hh
  | cons b rest ih =>
    intro h hh
    simp only [hash_loop]
    split
    · exact hh
    · exact ih _ (Nat.mod_lt _ (by decide))

theorem simple_hash_lt (data : List Nat) (nonce : Nat) (prev_hash : List Nat) :
    simple_hash data nonce prev_hash < U64 :=
  hash_loop_lt _ 0 (by decide)

theorem fmt_digits_length (b : Nat) (hb : 2 ≤ b) (fuel : Nat) :
    ∀ (k n : Nat) (acc : List Nat), n < b ^ (k + 1) →
      (fmt_digits b fuel n acc).length ≤ acc.length + (k + 1) := by
  induction fuel with
  | zero => intro k n acc _; simp [fmt_digits]
  | succ fuel ih =>
    intro k n acc hn
    simp only [fmt_digits]
    split
    · simp
    · rename_i hq
      cases k with
      | zero =>
        exfalso
        apply hq
        exact Nat.div_eq_of_lt (by simpa using hn)
      | succ k =>
        have hdiv : n / b < b ^ (k + 1) := by
          rw [Nat.div_lt_iff_lt_mul (by omega)]
          rw [pow_succ] at hn
          exact hn
        refine le_trans (ih k (n / b) _ hdiv) ?_
        simp only [List.length_cons]
        omega

theorem block_hash_text_eq (b : Block) :
    block_hash_text b = fmt_lx (simple_hash b.data b.nonce b.prev_hash) := by
  unfold block_hash_text snprintf
  apply List.take_of_length_le
  have h := fmt_digits_length 16 (by decide) (simple_hash b.data b.nonce b.prev_hash + 1) 15
    (simple_hash b.data b.nonce b.prev_hash) [] (by
      have := simple_hash_lt b.data b.nonce b.prev_hash
      unfold U64 at this
      calc simple_hash b.data b.nonce b.prev_hash < 2 ^ 64 := this
        _ = 16 ^ (15 + 1) := by norm_num)
  simp only [List.length_nil] at h
  unfold fmt_lx
  omega

/-! ## The program at concrete runs -/

/-- C1, the program at a run of two threads: thread 0 commits block 0 and
thread 1 commits block 1. Block 1 stores thread 1's own `prev_hash`, still the
genesis `"0"`, while the hash of block 0 renders as `76ce7bbd2ba94b40`: the
ledger of this reachable state is not chained. -/
theorem second_winner_stores_genesis :
    (run (init 2) chain_trace).g.block_count = 2 ∧
    (block_at (run (init 2) chain_trace).g 0).map Block.prev_hash = some genesis ∧
    (block_at (run (init 2) chain_trace).g 1).map Block.prev_hash = some genesis ∧
    (block_at (run (init 2) chain_trace).g 0).map
        (fun b => fmt_lx (simple_hash b.data b.nonce b.prev_hash))
      = some [55, 54, 99, 101, 55, 98, 98, 100, 50, 98, 97, 57, 52, 98, 52, 48] ∧
    ¬ Chained (run (init 2) chain_trace).g := by
  refine ⟨by decide, by decide, by decide, by decide, ?_⟩
  intro h
  have h0 : block_at (run (init 2) chain_trace).g 0
      = some ⟨0, 0, 1000, payload 0 0, 15, genesis⟩ := by decide
  have h1 : block_at (run (init 2) chain_trace).g 1
      = some ⟨1, 1, 1001, payload 1 1, 13, genesis⟩ := by decide
  have h01 := h 0 _ _ h0 h1
  revert h01
  decide

/-- C2, the program at a run of two threads that both build their payload in
round 0: after thread 0 has committed (`current_block = 1`), thread 1 stands
before its commit with the round-0 payload, and its commit step appends a
second block carrying that payload and advances both counters to 2. -/
theorem stale_solution_is_committed :
    (run (init 2) stale_trace).g.block_count = 1 ∧
    (run (init 2) stale_trace).g.current_block = 1 ∧
    (block_at (run (init 2) stale_trace).g 0).map Block.data = some (payload 0 0) ∧
    (run (init 2) stale_trace).workers[1]?.map (fun w => (w.pc, w.data))
      = some (Pc.commit, payload 1 0) ∧
    (step (run (init 2) stale_trace) (Event.worker 1 1001)).g.block_count = 2 ∧
    (step (run (init 2) stale_trace) (Event.worker 1 1001)).g.current_block = 2 ∧
    (block_at (step (run (init 2) stale_trace) (Event.worker 1 1001)).g 1).map Block.data
      = some (payload 1 0) := by
  decide

/-- C3, the program at a ledger of two blocks: the request Set-max-blocks 1 is
accepted, and leaves `block_count = 2` above `max_blocks = 1`. -/
theorem shrink_below_length_is_accepted :
    (run (init 1) two_blocks_trace).g.block_count = 2 ∧
    (run (init 1) two_blocks_trace).g.max_blocks = 20 ∧
    (ui_step (run (init 1) two_blocks_trace).g (Cmd.set_max_blocks 1)).2 = Msg.max_blocks_set 1 ∧
    (step (run (init 1) two_blocks_trace) (Event.ui (Cmd.set_max_blocks 1))).g.max_blocks = 1 ∧
    (step (run (init 1) two_blocks_trace) (Event.ui (Cmd.set_max_blocks 1))).g.block_count = 2 ∧
    ¬ (step (run (init 1) two_blocks_trace) (Event.ui (Cmd.set_max_blocks 1))).g.block_count
        ≤ (step (run (init 1) two_blocks_trace) (Event.ui (Cmd.set_max_blocks 1))).g.max_blocks := by
  decide

/-- C6, the program at a ledger of two blocks followed by Set-max-blocks 1:
the array keeps one cell, so index 1, still below `block_count = 2`, has no
block any more. -/
theorem shrink_drops_committed_block :
    (block_at (run (init 1) two_blocks_trace).g 1).map Block.block_id = some 1 ∧
    (run (init 1) (two_blocks_trace ++ [Event.ui (Cmd.set_max_blocks 1)])).g.block_count = 2 ∧
    (run (init 1) (two_blocks_trace ++ [Event.ui (Cmd.set_max_blocks 1)])).g.ledger.length = 1 ∧
    block_at (run (init 1) (two_blocks_trace ++ [Event.ui (Cmd.set_max_blocks 1)])).g 1 = none ∧
    ¬ ∀ i, i < (run (init 1) (two_blocks_trace ++ [Event.ui (Cmd.set_max_blocks 1)])).g.block_count →
        ∃ b, block_at (run (init 1) (two_blocks_trace ++ [Event.ui (Cmd.set_max_blocks 1)])).g i
          = some b ∧ b.block_id = i := by
  refine ⟨by decide, by decide, by decide, by decide, ?_⟩
  intro h
  obtain ⟨b, hb, _⟩ := h 1 (by decide)
  have hn : block_at (run (init 1) (two_blocks_trace ++ [Event.ui (Cmd.set_max_blocks 1)])).g 1
      = none := by decide
  rw [hn] at hb
  cases hb

/-- C10, the program at a ledger of two blocks followed by Set-max-blocks 1 and
Set-max-blocks 20: the capacity is back above `block_count = 2`, and cell 1 is
a fresh cell that holds no proof of work. -/
theorem regrown_cell_has_no_proof_of_work :
    (block_at (run (init 1) two_blocks_trace).g 1).map
        (fun b => simple_hash b.data b.nonce b.prev_hash % 16) = some 0 ∧
    (run (init 1) (two_blocks_trace ++
        [Event.ui (Cmd.set_max_blocks 1), Event.ui (Cmd.set_max_blocks 20)])).g.block_count = 2 ∧
    (run (init 1) (two_blocks_trace ++
        [Event.ui (Cmd.set_max_blocks 1), Event.ui (Cmd.set_max_blocks 20)])).g.max_blocks = 20 ∧
    block_at (run (init 1) (two_blocks_trace ++
        [Event.ui (Cmd.set_max_blocks 1), Event.ui (Cmd.set_max_blocks 20)])).g 1 = none ∧
    ¬ ∀ i, i < (run (init 1) (two_blocks_trace ++
          [Event.ui (Cmd.set_max_blocks 1), Event.ui (Cmd.set_max_blocks 20)])).g.block_count →
        ∃ b, block_at (run (init 1) (two_blocks_trace ++
          [Event.ui (Cmd.set_max_blocks 1), Event.ui (Cmd.set_max_blocks 20)])).g i = some b ∧
          simple_hash b.data b.nonce b.prev_hash % 16 = 0 := by
  refine ⟨by decide, by decide, by decide, by decide, ?_⟩
  intro h
  obtain ⟨b, hb, _⟩ := h 1 (by decide)
  have hn : block_at (run (init 1) (two_blocks_trace ++
      [Event.ui (Cmd.set_max_blocks 1), Event.ui (Cmd.set_max_blocks 20)])).g 1 = none := by decide
  rw [hn] at hb
  cases hb

/-- A thread woken in the round-start wait while the simulation is stopped and
the ledger is not full goes back to waiting, and changes nothing. -/
theorem wake_round_parks_again (now : Int) (g : Globals) (w : Worker)
    (hpc : w.pc = Pc.wait_round) (hrun : g.simulation_running = false)
    (hfull : g.current_block < g.max_blocks) : mine_step now g w = (g, w) := by
  have h : ¬ (g.current_block ≥ g.max_blocks) := by omega
  cases w
  simp only at hpc
  subst hpc
  simp [mine_step, hrun, h]

/-- C8, the program after Exit with an empty ledger: the three threads are in
the round-start wait, `simulation_running = 0`, `current_block = 0 < 20`, and
however often thread 0 is woken it is still in that wait, never returned. -/
theorem exit_leaves_threads_parked :
    (run (init 3) exit_trace).g.simulation_running = false ∧
    (run (init 3) exit_trace).ui_exited = true ∧
    (run (init 3) exit_trace).workers.map Worker.pc
      = [Pc.wait_round, Pc.wait_round, Pc.wait_round] ∧
    ∀ (k : Nat) (now : Int),
      (run (run (init 3) exit_trace) (List.replicate k (Event.worker 0 now))).workers[0]?.map
        Worker.pc = some Pc.wait_round := by
  refine ⟨by decide, by decide, by decide, ?_⟩
  intro k now
  have hs : ∀ k, run (run (init 3) exit_trace) (List.replicate k (Event.worker 0 now))
      = run (init 3) exit_trace := by
    intro k
    induction k with
    | zero => rfl
    | succ k ih =>
      rw [List.replicate_succ', run_append, ih]
      show step (run (init 3) exit_trace) (Event.worker 0 now) = _
      have hw : (run (init 3) exit_trace).workers[0]?
          = some { process_id := 0, data := [], nonce := 0, prev_hash := genesis, hash := 0,
                   pc := Pc.wait_round } := by decide
      simp only [step, hw]
      rw [wake_round_parks_again now _ _ rfl (by decide) (by decide)]
      decide
  rw [hs k]
  decide

/-- C9, the program at a run where thread 0 has found its nonce and Exit is
chosen before its commit: with `simulation_running = 0` the commit step still
appends block 0 and advances both counters. -/
theorem commit_after_exit_appends :
    (run (init 1) exit_before_commit_trace).g.simulation_running = false ∧
    (run (init 1) exit_before_commit_trace).ui_exited = true ∧
    (run (init 1) exit_before_commit_trace).g.block_count = 0 ∧
    (run (init 1) exit_before_commit_trace).workers[0]?.map Worker.pc = some Pc.commit ∧
    (step (run (init 1) exit_before_commit_trace) (Event.worker 0 1000)).g.simulation_running
      = false ∧
    (step (run (init 1) exit_before_commit_trace) (Event.worker 0 1000)).g.block_count = 1 ∧
    (step (run (init 1) exit_before_commit_trace) (Event.worker 0 1000)).g.current_block = 1 ∧
    (block_at (step (run (init 1) exit_before_commit_trace) (Event.worker 0 1000)).g 0).map
        Block.block_id = some 0 := by
  decide

end Scheduler
